import Mathlib

/-!
Verification of the Leakwatch message classification and deduplication
pipeline.  We give a shallow embedding, over `List Char`, of the pure parts
of `fetch_secure_session_improved.py` (the "improved" variant) and
`fetch_entire_history.py` (the "history" variant):
text cleaning, JSON-or-plain-text parsing, relevance scoring, structure
validation, content-hash deduplication and the persistence cap.

Python strings are modelled as `List Char` (Unicode code points); `str.lower`
is modelled by `Char.toLower` (exact on ASCII, which is all the keyword lists
use) and `str.strip` by stripping the ASCII whitespace characters.
-/

namespace Leakwatch

abbrev PyStr := List Char

/-- The whitespace characters `str.strip()` removes (ASCII fragment). -/
def pyIsSpace (ch : Char) : Bool :=
  ch = ' ' || ch = '\t' || ch = '\n' || ch = '\r' || ch = '\x0b' || ch = '\x0c'

/-- Model of `s.strip()`: remove leading and trailing whitespace. -/
def pyStrip (s : PyStr) : PyStr :=
  ((s.dropWhile pyIsSpace).reverse.dropWhile pyIsSpace).reverse

/-- Worker for `replaceAll`; the fuel bounds the number of scanning steps,
each of which consumes at least one character of `s`. -/
def replaceAllGo (pat rep : PyStr) : Nat → PyStr → PyStr
  | 0, s => s
  | _ + 1, [] => []
  | n + 1, c :: rest =>
    if pat <+: (c :: rest) then
      rep ++ replaceAllGo pat rep n ((c :: rest).drop pat.length)
    else
      c :: replaceAllGo pat rep n rest

/-- Model of `s.replace(pat, rep)`: replace non-overlapping occurrences of `pat`,
scanning left to right (for nonempty `pat`, which is all the code uses). -/
def replaceAll (pat rep : PyStr) (s : PyStr) : PyStr :=
  if pat = [] then s else replaceAllGo pat rep s.length s

/-- Model of the denylist removal `re.sub` call: drop the denylisted characters. -/
def stripDangerous (s : PyStr) : PyStr :=
  s.filter (fun ch => !(ch = '<' || ch = '>' || ch = '"' || ch = '\''))

/-- The watermark substrings removed by `clean_text` (identical in both
variants), in the order the code iterates them. -/
def watermarks : List PyStr :=
  [("**🔹 ****t.me/breachdetector**** 🔹**").data,
   ("t.me/breachdetector").data,
   ("**🔹").data,
   ("🔹**").data]

/-- Model of `MessageParser.clean_text` / `FullHistoryFetcher.clean_text` on string
input (both callers check `isinstance(text, str)` before reaching it):
watermark removal, un-escaping of the literal sequences backslash-n and
backslash-quote, denylist character removal, then strip. -/
def clean_text (text : PyStr) : PyStr :=
  let t := watermarks.foldl (fun acc w => replaceAll w [] acc) text
  let t := replaceAll ['\\', 'n'] [' '] t
  let t := replaceAll ['\\', '"'] ['"'] t
  pyStrip (stripDangerous t)

def MAX_CONTENT_LENGTH : Nat := 2000

def MAX_SOURCE_LENGTH : Nat := 500

def ALLOWED_BREACH_TYPES : List PyStr :=
  [("Data leak").data, ("Security breach").data, ("Privacy violation").data,
   ("Ransomware").data, ("Malware").data, ("Phishing").data, ("DDoS").data,
   ("Other").data]

/-- The list `DataProcessor.BREACH_INDICATORS` (improved variant). -/
def BREACH_INDICATORS : List PyStr :=
  [("leak").data, ("breach").data, ("hack").data, ("compromise").data,
   ("exposed").data, ("stolen").data, ("database").data,
   ("credentials").data, ("password").data, ("email").data,
   ("personal data").data, ("user data").data,
   ("customer data").data, ("financial data").data, ("credit card").data,
   ("ssn").data, ("social security").data]

/-- The list `DataProcessor.SPAM_INDICATORS` (improved variant). -/
def SPAM_INDICATORS : List PyStr :=
  [("buy").data, ("sell").data, ("offer").data, ("discount").data,
   ("promotion").data, ("service").data, ("tool").data,
   ("software").data, ("review").data, ("rating").data, ("backlink").data,
   ("seo").data, ("marketing").data,
   ("advertisement").data, ("sponsored").data, ("deal").data, ("sale").data,
   ("free trial").data]

/-- The `BREACH_INDICATORS` list of the history variant (note: it lists
`'database'` twice, so that keyword counts twice in the score). -/
def BREACH_INDICATORS_HIST : List PyStr :=
  [("leak").data, ("breach").data, ("hack").data, ("compromise").data,
   ("exposed").data, ("stolen").data, ("database").data,
   ("credentials").data, ("password").data, ("email").data,
   ("personal data").data, ("user data").data,
   ("customer data").data, ("financial data").data, ("credit card").data,
   ("ssn").data, ("social security").data,
   ("dump").data, ("database").data, ("records").data, ("accounts").data,
   ("users").data, ("customers").data,
   ("financial").data, ("banking").data, ("payment").data,
   ("transaction").data, ("identity").data, ("personal").data,
   ("address").data, ("phone").data, ("dob").data, ("date of birth").data,
   ("national id").data, ("passport").data]

/-- The `SPAM_INDICATORS` list of the history variant. -/
def SPAM_INDICATORS_HIST : List PyStr :=
  [("buy").data, ("sell").data, ("offer").data, ("discount").data,
   ("promotion").data, ("service").data, ("tool").data,
   ("software").data, ("review").data, ("rating").data, ("backlink").data,
   ("seo").data, ("marketing").data,
   ("advertisement").data, ("sponsored").data, ("deal").data, ("sale").data,
   ("free trial").data, ("subscribe").data,
   ("join").data, ("telegram.me").data, ("t.me").data, ("channel").data,
   ("group").data, ("bot").data, ("premium").data]

/-- The count `sum(1 for indicator in BREACH_INDICATORS if indicator in content_lower)`
over the case-folded content (improved variant). -/
def breachScore (content : PyStr) : Nat :=
  BREACH_INDICATORS.countP (fun k => decide (k <:+: content.map Char.toLower))

/-- Spam score of the improved variant. -/
def spamScore (content : PyStr) : Nat :=
  SPAM_INDICATORS.countP (fun k => decide (k <:+: content.map Char.toLower))

/-- Breach score of the history variant. -/
def breachScoreHist (content : PyStr) : Nat :=
  BREACH_INDICATORS_HIST.countP
    (fun k => decide (k <:+: content.map Char.toLower))

/-- Spam score of the history variant. -/
def spamScoreHist (content : PyStr) : Nat :=
  SPAM_INDICATORS_HIST.countP
    (fun k => decide (k <:+: content.map Char.toLower))

/-- Model of `DataProcessor.is_legitimate_breach` (improved variant). -/
def is_legitimate_breach (content : PyStr) : Bool :=
  if content = [] then false
  else decide (breachScore content > spamScore content)
    && decide (breachScore content > 0)

/-- Model of `FullHistoryFetcher.is_relevant_breach` (history variant). -/
def is_relevant_breach (content : PyStr) : Bool :=
  if content = [] then false
  else decide (breachScoreHist content > spamScoreHist content)
    && decide (breachScoreHist content > 0)

/-! ### SHA-256 (model of `hashlib.sha256(...).hexdigest()`) -/

def m32 (n : Nat) : Nat := n % 4294967296

def rotr (k x : Nat) : Nat := (x >>> k) ||| m32 (x <<< (32 - k))

def bigS0 (x : Nat) : Nat := rotr 2 x ^^^ rotr 13 x ^^^ rotr 22 x

def bigS1 (x : Nat) : Nat := rotr 6 x ^^^ rotr 11 x ^^^ rotr 25 x

def smallS0 (x : Nat) : Nat := rotr 7 x ^^^ rotr 18 x ^^^ (x >>> 3)

def smallS1 (x : Nat) : Nat := rotr 17 x ^^^ rotr 19 x ^^^ (x >>> 10)

def chF (x y z : Nat) : Nat := (x &&& y) ^^^ ((x ^^^ 4294967295) &&& z)

def majF (x y z : Nat) : Nat := (x &&& y) ^^^ (x &&& z) ^^^ (y &&& z)

/-- The 64 SHA-256 round constants of FIPS 180-4, written in decimal. -/
def SHA_K : List Nat :=
  [1116352408, 1899447441, 3049323471, 3921009573, 961987163,
   1508970993, 2453635748, 2870763221, 3624381080, 310598401,
   607225278, 1426881987, 1925078388, 2162078206, 2614888103,
   3248222580, 3835390401, 4022224774, 264347078, 604807628,
   770255983, 1249150122, 1555081692, 1996064986, 2554220882,
   2821834349, 2952996808, 3210313671, 3336571891, 3584528711,
   113926993, 338241895, 666307205, 773529912, 1294757372,
   1396182291, 1695183700, 1986661051, 2177026350, 2456956037,
   2730485921, 2820302411, 3259730800, 3345764771, 3516065817,
   3600352804, 4094571909, 275423344, 430227734, 506948616,
   659060556, 883997877, 958139571, 1322822218, 1537002063,
   1747873779, 1955562222, 2024104815, 2227730452, 2361852424,
   2428436474, 2756734187, 3204031479, 3329325298]

/-- The eight SHA-256 initial hash words of FIPS 180-4, in decimal. -/
def SHA_H0 : List Nat :=
  [1779033703, 3144134277, 1013904242, 2773480762,
   1359893119, 2600822924, 528734635, 1541459225]
def be64 (n : Nat) : List Nat :=
  [(n >>> 56) % 256, (n >>> 48) % 256, (n >>> 40) % 256, (n >>> 32) % 256,
   (n >>> 24) % 256, (n >>> 16) % 256, (n >>> 8) % 256, n % 256]

def be32 (n : Nat) : List Nat :=
  [(n >>> 24) % 256, (n >>> 16) % 256, (n >>> 8) % 256, n % 256]

def sha256pad (msg : List Nat) : List Nat :=
  let L := msg.length
  msg ++ (128 :: List.replicate ((119 - L % 64) % 64) 0) ++ be64 (8 * L)

def toWords : List Nat → List Nat
  | b0 :: b1 :: b2 :: b3 :: rest =>
      (((b0 * 256 + b1) * 256 + b2) * 256 + b3) :: toWords rest
  | _ => []

/-- Extend the 16 message-schedule words to 64, carrying the schedule so far
in reverse order. -/
def extendSchedule : Nat → List Nat → List Nat
  | 0, racc => racc
  | n + 1, racc =>
    extendSchedule n
      (m32 (smallS1 (racc.getD 1 0) + racc.getD 6 0 +
        smallS0 (racc.getD 14 0) + racc.getD 15 0) :: racc)

def shaRound (st : List Nat) (kw : Nat × Nat) : List Nat :=
  match st with
  | [a, b, c, d, e, f, g, h] =>
    let t1 := m32 (h + bigS1 e + chF e f g + kw.1 + kw.2)
    let t2 := m32 (bigS0 a + majF a b c)
    [m32 (t1 + t2), a, b, c, m32 (d + t1), e, f, g]
  | st => st

def processBlock (h : List Nat) (block : List Nat) : List Nat :=
  let ws := (extendSchedule 48 (toWords block).reverse).reverse
  let st := (SHA_K.zip ws).foldl shaRound h
  (h.zip st).map (fun p => m32 (p.1 + p.2))

/-- Split into 64-byte blocks; the fuel bounds the number of blocks. -/
def chunks64Go : Nat → List Nat → List (List Nat)
  | 0, _ => []
  | _ + 1, [] => []
  | n + 1, b :: rest => (b :: rest).take 64 :: chunks64Go n ((b :: rest).drop 64)

def chunks64 (l : List Nat) : List (List Nat) := chunks64Go l.length l

def sha256bytes (msg : List Nat) : List Nat :=
  (((chunks64 (sha256pad msg)).foldl processBlock SHA_H0).map be32).flatten

/-- UTF-8 encoding of one code point (`str.encode()` per character). -/
def utf8Bytes (c : Char) : List Nat :=
  let n := c.toNat
  if n < 128 then [n]
  else if n < 2048 then [192 + n / 64, 128 + n % 64]
  else if n < 65536 then
    [224 + n / 4096, 128 + (n / 64) % 64, 128 + n % 64]
  else
    [240 + n / 262144, 128 + (n / 4096) % 64, 128 + (n / 64) % 64,
     128 + n % 64]

def hexDigitChar (n : Nat) : Char := ("0123456789abcdef").data.getD n '0'

def hexOfBytes (bs : List Nat) : List Char :=
  (bs.map (fun b => [hexDigitChar (b / 16), hexDigitChar (b % 16)])).flatten

/-- Model of `hashlib.sha256(content.encode()).hexdigest()[:16]`, the deduplication
key computed from a record's stripped Content. -/
def contentHash (content : PyStr) : PyStr :=
  (hexOfBytes (sha256bytes ((content.map utf8Bytes).flatten))).take 16

/-! ### Records and deduplication (`DataProcessor.deduplicate_messages`) -/

/-- A stored message record: the persisted-schema fields a record may carry.
`deduplicate_messages` only ever reads `Content` (via `msg.get('Content', '')`);
the other fields ride along untouched. -/
structure Msg where
  Content : Option PyStr
  Source : Option PyStr
  TypeField : Option PyStr
  author : Option PyStr
  message_id : Option Int
  timestamp : Option PyStr
  hash_id : Option PyStr
deriving DecidableEq

/-- The guard `if content and DataProcessor.is_legitimate_breach(content)`,
as a function of a record's `Content` field. -/
def contPasses (oc : Option PyStr) : Bool :=
  decide (pyStrip (oc.getD []) ≠ []) && is_legitimate_breach (pyStrip (oc.getD []))

/-- The dedup key `hashlib.sha256(content.encode()).hexdigest()[:16]`, as a
function of a record's `Content` field. -/
def contHashOf (oc : Option PyStr) : PyStr := contentHash (pyStrip (oc.getD []))

/-- Model of `content = msg.get('Content', '').strip()`. -/
def msgContent (m : Msg) : PyStr := pyStrip (m.Content.getD [])

/-- The pass guard applied to a record. -/
def msgPasses (m : Msg) : Bool := contPasses m.Content

/-- The dedup key of a record. -/
def msgHash (m : Msg) : PyStr := contHashOf m.Content

/-- One filtering loop of `deduplicate_messages`: thread the seen-hash set
over the list, keeping passing records with unseen hashes. -/
def dedupGo : List PyStr → List Msg → List Msg × List PyStr
  | seen, [] => ([], seen)
  | seen, m :: rest =>
    if msgPasses m then
      if msgHash m ∈ seen then dedupGo seen rest
      else
        let p := dedupGo (msgHash m :: seen) rest
        (m :: p.1, p.2)
    else dedupGo seen rest

/-- Model of `DataProcessor.deduplicate_messages(existing, new)`: filter the existing
records first, then the new ones, sharing one seen-hash set. -/
def deduplicate_messages (existing new : List Msg) : List Msg :=
  let p := dedupGo [] existing
  ((p.1 ++ (dedupGo p.2 new).1) : List Msg)

/-- The size guard in `DataManager.save_data` (improved variant):
`if len(messages) > 10000: messages = messages[:10000]`. -/
def save_data_truncate (msgs : List Msg) : List Msg :=
  if msgs.length > 10000 then msgs.take 10000 else msgs

/-- The keep/drop decisions of one `deduplicate_messages` loop, computed from
the records' `Content` fields alone. -/
def keepMaskGo : List PyStr → List (Option PyStr) → List Bool
  | _, [] => []
  | seen, oc :: rest =>
    if contPasses oc then
      if contHashOf oc ∈ seen then false :: keepMaskGo seen rest
      else true :: keepMaskGo (contHashOf oc :: seen) rest
    else false :: keepMaskGo seen rest

/-- The seen-hash set after one `deduplicate_messages` loop, computed from
the records' `Content` fields alone. -/
def seenAfter : List PyStr → List (Option PyStr) → List PyStr
  | seen, [] => seen
  | seen, oc :: rest =>
    if contPasses oc then
      if contHashOf oc ∈ seen then seenAfter seen rest
      else seenAfter (contHashOf oc :: seen) rest
    else seenAfter seen rest

/-- Select the elements of a list marked `true` by a mask. -/
def applyMask {α : Type} : List Bool → List α → List α
  | true :: bs, x :: xs => x :: applyMask bs xs
  | false :: bs, _ :: xs => applyMask bs xs
  | _, _ => []

/-- The keep/drop decisions of a whole `deduplicate_messages` run, a function
of the `Content` fields of the two input lists only. -/
def keepMask (ce cn : List (Option PyStr)) : List Bool :=
  keepMaskGo [] ce ++ keepMaskGo (seenAfter [] ce) cn

/-! ### JSON values and `json.loads` -/

/-- Python values produced by `json.loads` (numeric results keep their source
token: the downstream code never inspects a number's value, only its type). -/
inductive JsonVal where
  | jstr (s : PyStr)
  | jnum (tok : PyStr)
  | jbool (b : Bool)
  | jnull
  | jarr (elems : List JsonVal)
  | jobj (entries : List (PyStr × JsonVal))

/-- JSON whitespace (the `[ \t\n\r]*` skipped between tokens). -/
def isWsJ (ch : Char) : Bool := ch = ' ' || ch = '\t' || ch = '\n' || ch = '\r'

def skipWs (s : PyStr) : PyStr := s.dropWhile isWsJ

def hexValOf (ch : Char) : Option Nat :=
  if '0' ≤ ch ∧ ch ≤ '9' then some (ch.toNat - 48)
  else if 'a' ≤ ch ∧ ch ≤ 'f' then some (ch.toNat - 87)
  else if 'A' ≤ ch ∧ ch ≤ 'F' then some (ch.toNat - 55)
  else none

/-- Body of a JSON string literal, after the opening quote.  Lone UTF-16
surrogates (which Python would keep as surrogate code points, unrepresentable
in `Char`) are mapped to U+FFFD; no input in this development contains them. -/
def parseStringBody : Nat → PyStr → Option (PyStr × PyStr)
  | 0, _ => none
  | _ + 1, [] => none
  | n + 1, ch :: r =>
    if ch = '"' then some ([], r)
    else if ch = '\\' then
      match r with
      | [] => none
      | e :: r2 =>
        if e = '"' then (parseStringBody n r2).map (fun p => ('"' :: p.1, p.2))
        else if e = '\\' then
          (parseStringBody n r2).map (fun p => ('\\' :: p.1, p.2))
        else if e = '/' then (parseStringBody n r2).map (fun p => ('/' :: p.1, p.2))
        else if e = 'b' then
          (parseStringBody n r2).map (fun p => ('\x08' :: p.1, p.2))
        else if e = 'f' then
          (parseStringBody n r2).map (fun p => ('\x0c' :: p.1, p.2))
        else if e = 'n' then
          (parseStringBody n r2).map (fun p => ('\n' :: p.1, p.2))
        else if e = 'r' then
          (parseStringBody n r2).map (fun p => ('\r' :: p.1, p.2))
        else if e = 't' then
          (parseStringBody n r2).map (fun p => ('\t' :: p.1, p.2))
        else if e = 'u' then
          match r2 with
          | h1 :: h2 :: h3 :: h4 :: r3 =>
            match hexValOf h1, hexValOf h2, hexValOf h3, hexValOf h4 with
            | some v1, some v2, some v3, some v4 =>
              let v := ((v1 * 16 + v2) * 16 + v3) * 16 + v4
              if 55296 ≤ v ∧ v ≤ 56319 then
                match r3 with
                | b1 :: b2 :: g1 :: g2 :: g3 :: g4 :: r4 =>
                  if b1 = '\\' ∧ b2 = 'u' then
                    match hexValOf g1, hexValOf g2, hexValOf g3, hexValOf g4 with
                    | some w1, some w2, some w3, some w4 =>
                      let w := ((w1 * 16 + w2) * 16 + w3) * 16 + w4
                      if 56320 ≤ w ∧ w ≤ 57343 then
                        (parseStringBody n r4).map (fun p =>
                          (Char.ofNat (65536 + (v - 55296) * 1024 + (w - 56320))
                            :: p.1, p.2))
                      else
                        (parseStringBody n r3).map (fun p =>
                          (Char.ofNat 65533 :: p.1, p.2))
                    | _, _, _, _ =>
                      (parseStringBody n r3).map (fun p =>
                        (Char.ofNat 65533 :: p.1, p.2))
                  else
                    (parseStringBody n r3).map (fun p =>
                      (Char.ofNat 65533 :: p.1, p.2))
                | _ =>
                  (parseStringBody n r3).map (fun p =>
                    (Char.ofNat 65533 :: p.1, p.2))
              else if 56320 ≤ v ∧ v ≤ 57343 then
                (parseStringBody n r3).map (fun p => (Char.ofNat 65533 :: p.1, p.2))
              else (parseStringBody n r3).map (fun p => (Char.ofNat v :: p.1, p.2))
            | _, _, _, _ => none
          | _ => none
        else none
    else if ch.toNat < 32 then none
    else (parseStringBody n r).map (fun p => (ch :: p.1, p.2))

def parseJString (s : PyStr) : Option (PyStr × PyStr) :=
  parseStringBody (s.length + 1) s

/-- The integer part of the JSON number grammar: `0` or a nonzero digit
followed by digits. -/
def parseIntPart : PyStr → Option (PyStr × PyStr)
  | [] => none
  | '0' :: r => some (['0'], r)
  | c :: r =>
    if c.isDigit then
      some ((c :: r).takeWhile Char.isDigit, (c :: r).dropWhile Char.isDigit)
    else none

/-- The optional fraction part `(\.\d+)?`. -/
def parseFracPart : PyStr → PyStr × PyStr
  | '.' :: r =>
    if (r.takeWhile Char.isDigit) = [] then ([], '.' :: r)
    else ('.' :: r.takeWhile Char.isDigit, r.dropWhile Char.isDigit)
  | s => ([], s)

/-- The optional exponent part `([eE][-+]?\d+)?`. -/
def parseExpPart : PyStr → PyStr × PyStr
  | [] => ([], [])
  | e :: r =>
    if e = 'e' ∨ e = 'E' then
      match r with
      | sgn :: r2 =>
        if sgn = '+' ∨ sgn = '-' then
          if (r2.takeWhile Char.isDigit) = [] then ([], e :: r)
          else (e :: sgn :: r2.takeWhile Char.isDigit, r2.dropWhile Char.isDigit)
        else
          if (r.takeWhile Char.isDigit) = [] then ([], e :: r)
          else (e :: r.takeWhile Char.isDigit, r.dropWhile Char.isDigit)
      | [] => ([], [e])
    else ([], e :: r)

/-- A JSON number token (including `-Infinity`, accepted by `json.loads`);
returns the token text and the remaining input. -/
def parseNumber : PyStr → Option (PyStr × PyStr)
  | '-' :: r =>
    if ("Infinity").data <+: r then some ('-' :: ("Infinity").data, r.drop 8)
    else
      match parseIntPart r with
      | none => none
      | some (ip, r2) =>
        let f := parseFracPart r2
        let e := parseExpPart f.2
        some ('-' :: (ip ++ f.1 ++ e.1), e.2)
  | s =>
    match parseIntPart s with
    | none => none
    | some (ip, r2) =>
      let f := parseFracPart r2
      let e := parseExpPart f.2
      some (ip ++ f.1 ++ e.1, e.2)

def expectLit (lit : PyStr) (v : JsonVal) (s : PyStr) : Option (JsonVal × PyStr) :=
  if lit <+: s then some (v, s.drop lit.length) else none

/-- Python `dict` assignment: replace the value at an existing key in place, else
append the new key. -/
def dictSet : List (PyStr × JsonVal) → PyStr → JsonVal → List (PyStr × JsonVal)
  | [], k, v => [(k, v)]
  | (k', v') :: rest, k, v =>
    if k' = k then (k', v) :: rest else (k', v') :: dictSet rest k v

/-- Build a Python dict from parsed members (later duplicate keys overwrite
earlier values, keeping the original position). -/
def dictify (kvs : List (PyStr × JsonVal)) : List (PyStr × JsonVal) :=
  kvs.foldl (fun d kv => dictSet d kv.1 kv.2) []

mutual

/-- Recursive-descent JSON value parser; the fuel dominates the call depth. -/
def parseVal : Nat → PyStr → Option (JsonVal × PyStr)
  | 0, _ => none
  | n + 1, s =>
    match skipWs s with
    | [] => none
    | ch :: r =>
      if ch = '\x7b' then
        match skipWs r with
        | [] => none
        | c2 :: r2 =>
          if c2 = '\x7d' then some (JsonVal.jobj [], r2)
          else
            (parseMembers n (c2 :: r2)).map
              (fun p => (JsonVal.jobj (dictify p.1), p.2))
      else if ch = '[' then
        match skipWs r with
        | [] => none
        | c2 :: r2 =>
          if c2 = ']' then some (JsonVal.jarr [], r2)
          else (parseElems n (c2 :: r2)).map (fun p => (JsonVal.jarr p.1, p.2))
      else if ch = '"' then
        (parseJString r).map (fun p => (JsonVal.jstr p.1, p.2))
      else if ch = 't' then expectLit (("true").data) (JsonVal.jbool true) (ch :: r)
      else if ch = 'f' then expectLit (("false").data) (JsonVal.jbool false) (ch :: r)
      else if ch = 'n' then expectLit (("null").data) JsonVal.jnull (ch :: r)
      else if ch = 'N' then
        expectLit (("NaN").data) (JsonVal.jnum (("NaN").data)) (ch :: r)
      else if ch = 'I' then
        expectLit (("Infinity").data) (JsonVal.jnum (("Infinity").data)) (ch :: r)
      else (parseNumber (ch :: r)).map (fun p => (JsonVal.jnum p.1, p.2))

/-- Object members `"key" : value (, "key" : value)* \x7d`; the input starts
at a key (whitespace already skipped). -/
def parseMembers : Nat → PyStr → Option (List (PyStr × JsonVal) × PyStr)
  | 0, _ => none
  | _ + 1, [] => none
  | n + 1, ch :: r =>
    if ch = '"' then
      match parseJString r with
      | none => none
      | some (key, r2) =>
        match skipWs r2 with
        | [] => none
        | c3 :: r3 =>
          if c3 = ':' then
            match parseVal n r3 with
            | none => none
            | some (v, r4) =>
              match skipWs r4 with
              | [] => none
              | c5 :: r5 =>
                if c5 = ',' then
                  (parseMembers n (skipWs r5)).map
                    (fun p => ((key, v) :: p.1, p.2))
                else if c5 = '\x7d' then some ([(key, v)], r5)
                else none
          else none
    else none

/-- Array elements `value (, value)* ]`. -/
def parseElems : Nat → PyStr → Option (List JsonVal × PyStr)
  | 0, _ => none
  | n + 1, s =>
    match parseVal n s with
    | none => none
    | some (v, r) =>
      match skipWs r with
      | [] => none
      | c2 :: r2 =>
        if c2 = ',' then
          (parseElems n (skipWs r2)).map (fun p => (v :: p.1, p.2))
        else if c2 = ']' then some ([v], r2)
        else none

end

/-- Model of `json.loads`: parse one value, then require only whitespace to remain. -/
def jsonLoads (s : PyStr) : Option JsonVal :=
  match parseVal (2 * s.length + 4) s with
  | some (v, r) => if skipWs r = [] then some v else none
  | none => none

/-! ### The two message parsers -/

/-- Input to `parse_message_content` / `parse_json_message`: a Python string,
or any non-string value (all rejected alike by the `isinstance` check). -/
inductive MsgIn where
  | ofStr (s : PyStr)
  | nonStr
deriving DecidableEq

def contentKey : PyStr := ("Content").data

def sourceKey : PyStr := ("Source").data

def typeKey : PyStr := ("Type").data

def unknownVal : PyStr := ("Unknown").data

def dataLeakVal : PyStr := ("Data leak").data

def otherVal : PyStr := ("Other").data

def hasKey (k : PyStr) (d : List (PyStr × JsonVal)) : Bool :=
  d.any (fun p => decide (p.1 = k))

/-- Model of `d.get(k)` on a dict: the value at the first (unique) matching key. -/
def jGet (k : PyStr) (d : List (PyStr × JsonVal)) : Option JsonVal :=
  (d.find? (fun p => decide (p.1 = k))).map (fun p => p.2)

/-- The required-field defaulting applied to a parsed dict (`clean_text` is
the current loop text `c`): absent `Content` defaults to `c`, absent
`Source` to `"Unknown"`, absent `Type` to `"Data leak"`, appended in that
order (Python dict insertion order). -/
def setDefaults (c : PyStr) (d : List (PyStr × JsonVal)) : List (PyStr × JsonVal) :=
  let d1 := if hasKey contentKey d then d else d ++ [(contentKey, JsonVal.jstr c)]
  let d2 := if hasKey sourceKey d1 then d1 else d1 ++ [(sourceKey, JsonVal.jstr unknownVal)]
  if hasKey typeKey d2 then d2 else d2 ++ [(typeKey, JsonVal.jstr dataLeakVal)]

/-- The per-field coercion loop of the improved variant: truncate over-long
string `Content`/`Source` values; `Type` is left untouched. -/
def coerceFieldImp (kv : PyStr × JsonVal) : PyStr × JsonVal :=
  match kv with
  | (k, JsonVal.jstr v) =>
    if k = contentKey ∧ v.length > MAX_CONTENT_LENGTH then
      (k, JsonVal.jstr (v.take MAX_CONTENT_LENGTH))
    else if k = sourceKey ∧ v.length > MAX_SOURCE_LENGTH then
      (k, JsonVal.jstr (v.take MAX_SOURCE_LENGTH))
    else (k, JsonVal.jstr v)
  | kv => kv

/-- The per-field coercion loop of the history variant: as above, and a
string `Type` value outside `ALLOWED_BREACH_TYPES` is coerced to `"Other"`. -/
def coerceFieldHist (kv : PyStr × JsonVal) : PyStr × JsonVal :=
  match kv with
  | (k, JsonVal.jstr v) =>
    if k = contentKey ∧ v.length > MAX_CONTENT_LENGTH then
      (k, JsonVal.jstr (v.take MAX_CONTENT_LENGTH))
    else if k = sourceKey ∧ v.length > MAX_SOURCE_LENGTH then
      (k, JsonVal.jstr (v.take MAX_SOURCE_LENGTH))
    else if k = typeKey then
      if v ∈ ALLOWED_BREACH_TYPES then (k, JsonVal.jstr v)
      else (k, JsonVal.jstr otherVal)
    else (k, JsonVal.jstr v)
  | kv => kv

/-- The truncation `if len(clean_text) > MAX_CONTENT_LENGTH: clean_text = clean_text[:MAX]`. -/
def truncContent (c : PyStr) : PyStr :=
  if c.length > MAX_CONTENT_LENGTH then c.take MAX_CONTENT_LENGTH else c

def fallbackEntries (c : PyStr) : List (PyStr × JsonVal) :=
  [(contentKey, JsonVal.jstr c), (sourceKey, JsonVal.jstr unknownVal),
   (typeKey, JsonVal.jstr dataLeakVal)]

/-- The plain-text fallback record
`{"Content": clean_text, "Source": "Unknown", "Type": "Data leak"}`. -/
def fallbackRecord (c : PyStr) : JsonVal := JsonVal.jobj (fallbackEntries c)

/-- The `for attempt in range(2)` loop of the improved variant, carrying the
current `clean_text`.  A decode failure breaks to the plain-text fallback;
a decoded string re-enters the loop; a dict is defaulted and coerced; any
other decoded value is returned as-is (the improved variant has no dict
check on the way out). -/
def impLoop : Nat → PyStr → Option JsonVal
  | 0, c => some (fallbackRecord c)
  | n + 1, c =>
    match jsonLoads c with
    | none => some (fallbackRecord c)
    | some (JsonVal.jstr s) => impLoop n s
    | some (JsonVal.jobj kvs) =>
      some (JsonVal.jobj ((setDefaults c kvs).map coerceFieldImp))
    | some v => some v

/-- Model of `MessageParser.parse_message_content` (improved variant). -/
def parse_message_content : MsgIn → Option JsonVal
  | MsgIn.nonStr => none
  | MsgIn.ofStr text => impLoop 2 (truncContent (clean_text text))

/-- The `for attempt in range(2)` loop of the history variant: a decode
failure, a non-dict result or an exhausted loop yields `None`; a dict is
defaulted, coerced, and returned only if its `Content` passes
`is_relevant_breach`.  A non-string `Content` value would raise in
`.lower()` and be swallowed by the enclosing handler, also yielding `None`. -/
def histLoop : Nat → PyStr → Option JsonVal
  | 0, _ => none
  | n + 1, c =>
    match jsonLoads c with
    | none => none
    | some (JsonVal.jstr s) => histLoop n s
    | some (JsonVal.jobj kvs) =>
      let d := (setDefaults c kvs).map coerceFieldHist
      match jGet contentKey d with
      | some (JsonVal.jstr cc) =>
        if is_relevant_breach cc then some (JsonVal.jobj d) else none
      | some _ => none
      | none => none
    | some _ => none

/-- Model of `FullHistoryFetcher.parse_json_message` (history variant). -/
def parse_json_message : MsgIn → Option JsonVal
  | MsgIn.nonStr => none
  | MsgIn.ofStr text => histLoop 2 (truncContent (clean_text text))

/-- Model of `DataProcessor.validate_message_structure` on a parsed dict: requires a
`Content` key whose stripped value is nonempty, within the length cap, and
classifier-approved.  (A non-string `Content` value would raise in `.strip()`;
it is modelled as a rejection, and no parser output can carry one.) -/
def validate_message_structure (d : List (PyStr × JsonVal)) : Bool :=
  match jGet contentKey d with
  | some (JsonVal.jstr c0) =>
    let c := pyStrip c0
    if c = [] then false
    else if c.length > MAX_CONTENT_LENGTH then false
    else is_legitimate_breach c
  | some _ => false
  | none => false

/-! ### `json.dumps` (default separators, `ensure_ascii=True`) -/

def escChar (c : Char) : PyStr :=
  if c = '"' then ['\\', '"']
  else if c = '\\' then ['\\', '\\']
  else if c = '\n' then ['\\', 'n']
  else if c = '\r' then ['\\', 'r']
  else if c = '\t' then ['\\', 't']
  else if c = '\x08' then ['\\', 'b']
  else if c = '\x0c' then ['\\', 'f']
  else if c.toNat < 32 then
    ['\\', 'u', '0', '0', hexDigitChar (c.toNat / 16), hexDigitChar (c.toNat % 16)]
  else if c.toNat < 127 then [c]
  else if c.toNat < 65536 then
    ['\\', 'u', hexDigitChar (c.toNat / 4096 % 16), hexDigitChar (c.toNat / 256 % 16),
     hexDigitChar (c.toNat / 16 % 16), hexDigitChar (c.toNat % 16)]
  else
    ['\\', 'u', hexDigitChar ((55296 + (c.toNat - 65536) / 1024) / 4096 % 16),
     hexDigitChar ((55296 + (c.toNat - 65536) / 1024) / 256 % 16),
     hexDigitChar ((55296 + (c.toNat - 65536) / 1024) / 16 % 16),
     hexDigitChar ((55296 + (c.toNat - 65536) / 1024) % 16),
     '\\', 'u', hexDigitChar ((56320 + (c.toNat - 65536) % 1024) / 4096 % 16),
     hexDigitChar ((56320 + (c.toNat - 65536) % 1024) / 256 % 16),
     hexDigitChar ((56320 + (c.toNat - 65536) % 1024) / 16 % 16),
     hexDigitChar ((56320 + (c.toNat - 65536) % 1024) % 16)]

def dumpStr (s : PyStr) : PyStr := '"' :: (s.map escChar).flatten ++ ['"']

def joinSep (parts : List PyStr) : PyStr :=
  (parts.intersperse ((", ").data)).flatten

/-- Serializer worker; the fuel dominates the nesting depth of the value. -/
def dumpGo : Nat → JsonVal → PyStr
  | 0, _ => []
  | n + 1, v =>
    match v with
    | JsonVal.jstr s => dumpStr s
    | JsonVal.jnum t => t
    | JsonVal.jbool true => ("true").data
    | JsonVal.jbool false => ("false").data
    | JsonVal.jnull => ("null").data
    | JsonVal.jarr xs => '[' :: joinSep (xs.map (dumpGo n)) ++ [']']
    | JsonVal.jobj kvs =>
      '\x7b' :: joinSep (kvs.map (fun kv => dumpStr kv.1 ++ ':' :: ' ' :: dumpGo n kv.2))
        ++ ['\x7d']

/-- Model of `json.dumps`: exact for every value whose nesting depth is below the
fuel; the records this development serializes have depth two. -/
def pyJsonDumps (v : JsonVal) : PyStr := dumpGo 1000000 v

/-! ### Concrete records and inputs used in witnesses -/

def msgA : Msg := ⟨some (("data breach").data), none, none, none, none, none, none⟩

def msgB : Msg :=
  ⟨some ((" data breach ").data), some (("other.com").data), none, none, none,
   none, none⟩

def msgC : Msg := ⟨some (("password leak").data), none, none, none, none, none, none⟩

def msgD : Msg :=
  ⟨some (("stolen credentials").data), none, none, none, none, none, none⟩

def msgSpam : Msg :=
  ⟨some (("buy this tool at a discount sale to hack").data), none, none, none,
   none, none, none⟩

def msgA2 : Msg :=
  ⟨some (("data breach").data), some (("a.com").data), some (("Phishing").data),
   some (("bob").data), some 7, some (("2024-01-01T00:00:00").data),
   some (("deadbeefdeadbeef").data)⟩

/-- The spec scenario's raw structured input (C8). -/
def c8raw : PyStr :=
  ("\x7b\"Source\": \"test.com\", \"Content\": \"Database breach exposed 10000 user credentials\", \"Type\": \"Data leak\"\x7d").data

/-- What `clean_text` leaves of `c8raw` once every double quote is removed. -/
def c8mangled : PyStr :=
  ("\x7bSource: test.com, Content: Database breach exposed 10000 user credentials, Type: Data leak\x7d").data

/-- The scenario's Content field value. -/
def c8content : PyStr := ("Database breach exposed 10000 user credentials").data

/-- A plain-text input whose parse output is round-tripped (C4). -/
def rtInput : PyStr := ("Database breach exposed").data

/-- What `clean_text` leaves of the serialized record of `rtInput` once every
double quote is removed. -/
def rtMangled : PyStr :=
  ("\x7bContent: Database breach exposed, Source: Unknown, Type: Data leak\x7d").data

/-! ### Lemmas about the deduplication loop -/

theorem breachScore_nil : breachScore [] = 0 := by decide

theorem breachScoreHist_nil : breachScoreHist [] = 0 := by decide

/-- C2: for every content string, the classifier (in both variants) returns
true exactly when the breach score strictly exceeds the spam score and is
positive, the scores being the counts of keyword-list members occurring as
substrings of the case-folded content; in particular empty content is
classified as non-breach. -/
theorem classifier_score_iff (content : PyStr) :
    (is_legitimate_breach content = true ↔
      (breachScore content > spamScore content ∧ breachScore content > 0))
    ∧ (is_relevant_breach content = true ↔
      (breachScoreHist content > spamScoreHist content ∧
        breachScoreHist content > 0))
    ∧ is_legitimate_breach [] = false
    ∧ is_relevant_breach [] = false := by
  refine ⟨?_, ?_, by decide, by decide⟩
  · unfold is_legitimate_breach
    by_cases h : content = []
    · subst h
      simp [breachScore_nil]
    · simp [h, Bool.and_eq_true, decide_eq_true_iff]
  · unfold is_relevant_breach
    by_cases h : content = []
    · subst h
      simp [breachScoreHist_nil]
    · simp [h, Bool.and_eq_true, decide_eq_true_iff]


attribute [irreducible] contentHash

theorem dedupGo_cons_skip {seen : List PyStr} {x : Msg} (rest : List Msg)
    (hp : msgPasses x = true) (hh : msgHash x ∈ seen) :
    dedupGo seen (x :: rest) = dedupGo seen rest := by
  simp [dedupGo, hp, hh]

theorem dedupGo_cons_keep {seen : List PyStr} {x : Msg} (rest : List Msg)
    (hp : msgPasses x = true) (hh : msgHash x ∉ seen) :
    dedupGo seen (x :: rest) =
      (x :: (dedupGo (msgHash x :: seen) rest).1,
       (dedupGo (msgHash x :: seen) rest).2) := by
  simp [dedupGo, hp, hh]

theorem dedupGo_cons_drop {seen : List PyStr} {x : Msg} (rest : List Msg)
    (hp : msgPasses x = false) :
    dedupGo seen (x :: rest) = dedupGo seen rest := by
  simp [dedupGo, hp]

theorem dedupGo_sublist : ∀ (l : List Msg) (seen : List PyStr),
    List.Sublist (dedupGo seen l).1 l := by
  intro l
  induction l with
  | nil => intro seen; simp [dedupGo]
  | cons x rest ih =>
    intro seen
    cases hp : msgPasses x with
    | true =>
      by_cases hh : msgHash x ∈ seen
      · rw [dedupGo_cons_skip rest hp hh]
        exact (ih seen).cons x
      · rw [dedupGo_cons_keep rest hp hh]
        exact (ih _).cons₂ x
    | false =>
      rw [dedupGo_cons_drop rest hp]
      exact (ih seen).cons x

theorem dedupGo_passes : ∀ (l : List Msg) (seen : List PyStr) (m : Msg),
    m ∈ (dedupGo seen l).1 → msgPasses m = true := by
  intro l
  induction l with
  | nil => intro seen m h; simp [dedupGo] at h
  | cons x rest ih =>
    intro seen m h
    cases hp : msgPasses x with
    | true =>
      by_cases hh : msgHash x ∈ seen
      · rw [dedupGo_cons_skip rest hp hh] at h
        exact ih seen m h
      · rw [dedupGo_cons_keep rest hp hh] at h
        rcases List.mem_cons.mp h with h | h
        · subst h; exact hp
        · exact ih _ m h
    | false =>
      rw [dedupGo_cons_drop rest hp] at h
      exact ih seen m h

theorem dedupGo_seen_iff : ∀ (l : List Msg) (seen : List PyStr) (h : PyStr),
    h ∈ (dedupGo seen l).2 ↔
      h ∈ ((dedupGo seen l).1.map msgHash) ∨ h ∈ seen := by
  intro l
  induction l with
  | nil => intro seen h; simp [dedupGo]
  | cons x rest ih =>
    intro seen h
    cases hp : msgPasses x with
    | true =>
      by_cases hh : msgHash x ∈ seen
      · rw [dedupGo_cons_skip rest hp hh]
        exact ih seen h
      · rw [dedupGo_cons_keep rest hp hh]
        simp only [List.map_cons, List.mem_cons]
        rw [ih (msgHash x :: seen) h]
        simp only [List.mem_cons]
        tauto
    | false =>
      rw [dedupGo_cons_drop rest hp]
      exact ih seen h

theorem dedupGo_hash_fresh : ∀ (l : List Msg) (seen : List PyStr),
    ((dedupGo seen l).1.map msgHash).Nodup ∧
      ∀ m ∈ (dedupGo seen l).1, msgHash m ∉ seen := by
  intro l
  induction l with
  | nil => intro seen; simp [dedupGo]
  | cons x rest ih =>
    intro seen
    cases hp : msgPasses x with
    | true =>
      by_cases hh : msgHash x ∈ seen
      · rw [dedupGo_cons_skip rest hp hh]
        exact ih seen
      · rw [dedupGo_cons_keep rest hp hh]
        rcases ih (msgHash x :: seen) with ⟨hnd, hfresh⟩
        constructor
        · simp only [List.map_cons]
          refine List.nodup_cons.mpr ⟨?_, hnd⟩
          intro hmem
          rcases List.mem_map.mp hmem with ⟨m, hm, hmh⟩
          exact hfresh m hm (hmh ▸ List.mem_cons_self _ _)
        · intro m hm
          rcases List.mem_cons.mp hm with h | h
          · subst h; exact hh
          · intro hsm
            exact hfresh m h (List.mem_cons_of_mem _ hsm)
    | false =>
      rw [dedupGo_cons_drop rest hp]
      exact ih seen

theorem dedupGo_mem_seen_of_passes :
    ∀ (l : List Msg) (seen : List PyStr) (m : Msg),
    m ∈ l → msgPasses m = true → msgHash m ∈ (dedupGo seen l).2 := by
  intro l
  induction l with
  | nil => intro seen m h; simp at h
  | cons x rest ih =>
    intro seen m hm hp
    rcases List.mem_cons.mp hm with h | h
    · subst h
      by_cases hh : msgHash m ∈ seen
      · rw [dedupGo_cons_skip rest hp hh]
        exact (dedupGo_seen_iff rest seen (msgHash m)).mpr (Or.inr hh)
      · rw [dedupGo_cons_keep rest hp hh]
        exact (dedupGo_seen_iff rest _ (msgHash m)).mpr
          (Or.inr (List.mem_cons_self _ _))
    · cases hpx : msgPasses x with
      | true =>
        by_cases hh : msgHash x ∈ seen
        · rw [dedupGo_cons_skip rest hpx hh]; exact ih seen m h hp
        · rw [dedupGo_cons_keep rest hpx hh]; exact ih _ m h hp
      | false =>
        rw [dedupGo_cons_drop rest hpx]
        exact ih seen m h hp

theorem dedupGo_congr : ∀ (l : List Msg) (seen seen' : List PyStr),
    (∀ h, h ∈ seen ↔ h ∈ seen') →
    (dedupGo seen l).1 = (dedupGo seen' l).1 ∧
      (∀ h, h ∈ (dedupGo seen l).2 ↔ h ∈ (dedupGo seen' l).2) := by
  intro l
  induction l with
  | nil => intro seen seen' he; exact ⟨rfl, he⟩
  | cons x rest ih =>
    intro seen seen' he
    cases hp : msgPasses x with
    | true =>
      by_cases hh : msgHash x ∈ seen
      · rw [dedupGo_cons_skip rest hp hh,
          dedupGo_cons_skip rest hp ((he _).mp hh)]
        exact ih seen seen' he
      · have hh' : msgHash x ∉ seen' := fun hc => hh ((he _).mpr hc)
        rw [dedupGo_cons_keep rest hp hh, dedupGo_cons_keep rest hp hh']
        have he2 : ∀ h, h ∈ msgHash x :: seen ↔ h ∈ msgHash x :: seen' := by
          intro h
          simp only [List.mem_cons]
          rw [he h]
        rcases ih (msgHash x :: seen) (msgHash x :: seen') he2 with ⟨h1, h2⟩
        exact ⟨by rw [h1], h2⟩
    | false =>
      rw [dedupGo_cons_drop rest hp, dedupGo_cons_drop rest hp]
      exact ih seen seen' he

theorem dedupGo_append : ∀ (xs ys : List Msg) (seen : List PyStr),
    dedupGo seen (xs ++ ys) =
      ((dedupGo seen xs).1 ++ (dedupGo (dedupGo seen xs).2 ys).1,
       (dedupGo (dedupGo seen xs).2 ys).2) := by
  intro xs
  induction xs with
  | nil => intro ys seen; simp [dedupGo]
  | cons x rest ih =>
    intro ys seen
    rw [List.cons_append]
    cases hp : msgPasses x with
    | true =>
      by_cases hh : msgHash x ∈ seen
      · rw [dedupGo_cons_skip (rest ++ ys) hp hh, dedupGo_cons_skip rest hp hh]
        exact ih ys seen
      · rw [dedupGo_cons_keep (rest ++ ys) hp hh, dedupGo_cons_keep rest hp hh]
        rw [ih ys (msgHash x :: seen)]
        rfl
    | false =>
      rw [dedupGo_cons_drop (rest ++ ys) hp, dedupGo_cons_drop rest hp]
      exact ih ys seen

theorem dedupGo_stable : ∀ (l : List Msg) (seen : List PyStr),
    (∀ m ∈ l, msgPasses m = true) → (l.map msgHash).Nodup →
    (∀ m ∈ l, msgHash m ∉ seen) → (dedupGo seen l).1 = l := by
  intro l
  induction l with
  | nil => intro seen _ _ _; rfl
  | cons x rest ih =>
    intro seen hpass hnd hfresh
    rw [dedupGo_cons_keep rest (hpass x (List.mem_cons_self _ _))
      (hfresh x (List.mem_cons_self _ _))]
    simp only [List.map_cons, List.nodup_cons] at hnd
    have hrest : (dedupGo (msgHash x :: seen) rest).1 = rest := by
      refine ih _ (fun m hm => hpass m (List.mem_cons_of_mem _ hm)) hnd.2 ?_
      intro m hm hc
      rcases List.mem_cons.mp hc with h | h
      · exact hnd.1 (h ▸ List.mem_map_of_mem msgHash hm)
      · exact hfresh m (List.mem_cons_of_mem _ hm) h
    rw [hrest]

theorem keepMaskGo_length : ∀ (cs : List (Option PyStr)) (seen : List PyStr),
    (keepMaskGo seen cs).length = cs.length := by
  intro cs
  induction cs with
  | nil => intro seen; rfl
  | cons oc rest ih =>
    intro seen
    cases hp : contPasses oc with
    | true =>
      by_cases hh : contHashOf oc ∈ seen
      · simp [keepMaskGo, hp, hh, ih]
      · simp [keepMaskGo, hp, hh, ih]
    | false => simp [keepMaskGo, hp, ih]

theorem applyMask_append {α : Type} :
    ∀ (bs : List Bool) (xs : List α) (cs : List Bool) (ys : List α),
    bs.length = xs.length →
    applyMask (bs ++ cs) (xs ++ ys) = applyMask bs xs ++ applyMask cs ys := by
  intro bs
  induction bs with
  | nil =>
    intro xs cs ys hlen
    cases xs with
    | nil => rfl
    | cons x xs => simp at hlen
  | cons b bs ih =>
    intro xs cs ys hlen
    cases xs with
    | nil => simp at hlen
    | cons x xs =>
      simp only [List.length_cons, Nat.succ_inj] at hlen
      cases b with
      | true =>
        simp only [List.cons_append, applyMask]
        exact congrArg (fun t => x :: t) (ih xs cs ys hlen)
      | false =>
        simp only [List.cons_append, applyMask]
        exact ih xs cs ys hlen

theorem dedupGo_mask : ∀ (l : List Msg) (seen : List PyStr),
    dedupGo seen l =
      (applyMask (keepMaskGo seen (l.map Msg.Content)) l,
       seenAfter seen (l.map Msg.Content)) := by
  intro l
  induction l with
  | nil => intro seen; rfl
  | cons x rest ih =>
    intro seen
    rw [List.map_cons]
    cases hp : msgPasses x with
    | true =>
      by_cases hh : msgHash x ∈ seen
      · rw [dedupGo_cons_skip rest hp hh, ih seen]
        have hstep : keepMaskGo seen (x.Content :: rest.map Msg.Content) =
            false :: keepMaskGo seen (rest.map Msg.Content) := by
          simp [keepMaskGo, show contPasses x.Content = true from hp,
            show contHashOf x.Content ∈ seen from hh]
        have hstep2 : seenAfter seen (x.Content :: rest.map Msg.Content) =
            seenAfter seen (rest.map Msg.Content) := by
          simp [seenAfter, show contPasses x.Content = true from hp,
            show contHashOf x.Content ∈ seen from hh]
        rw [hstep, hstep2]
        rfl
      · rw [dedupGo_cons_keep rest hp hh, ih (msgHash x :: seen)]
        have hstep : keepMaskGo seen (x.Content :: rest.map Msg.Content) =
            true :: keepMaskGo (contHashOf x.Content :: seen) (rest.map Msg.Content) := by
          simp [keepMaskGo, show contPasses x.Content = true from hp,
            show contHashOf x.Content ∉ seen from hh]
        have hstep2 : seenAfter seen (x.Content :: rest.map Msg.Content) =
            seenAfter (contHashOf x.Content :: seen) (rest.map Msg.Content) := by
          simp [seenAfter, show contPasses x.Content = true from hp,
            show contHashOf x.Content ∉ seen from hh]
        rw [hstep, hstep2]
        rfl
    | false =>
      rw [dedupGo_cons_drop rest hp, ih seen]
      have hstep : keepMaskGo seen (x.Content :: rest.map Msg.Content) =
          false :: keepMaskGo seen (rest.map Msg.Content) := by
        simp [keepMaskGo, show contPasses x.Content = false from hp]
      have hstep2 : seenAfter seen (x.Content :: rest.map Msg.Content) =
          seenAfter seen (rest.map Msg.Content) := by
        simp [seenAfter, show contPasses x.Content = false from hp]
      rw [hstep, hstep2]
      rfl

theorem dedup_eq_append (e n : List Msg) :
    deduplicate_messages e n =
      (dedupGo [] e).1 ++ (dedupGo (dedupGo [] e).2 n).1 := rfl

/-- C1: the merge (`deduplicate_messages`) never outputs two records with the
same content hash (first 16 hex characters of SHA-256 of the stripped
Content); and whenever a passing record of the existing store shares its hash
with any incoming record, the output record carrying that hash is one of the
existing store: existing records are processed first, then incoming ones, and
a record is appended only if its hash is unseen. -/
theorem dedup_hash_unique_existing_wins (existing new : List Msg) :
    ((deduplicate_messages existing new).map msgHash).Nodup
    ∧ ∀ e ∈ existing, msgPasses e = true →
        ∀ m ∈ deduplicate_messages existing new,
          msgHash m = msgHash e → m ∈ existing := by
  constructor
  · rw [dedup_eq_append, List.map_append]
    apply List.Nodup.append
    · exact (dedupGo_hash_fresh existing []).1
    · exact (dedupGo_hash_fresh new (dedupGo [] existing).2).1
    · intro h hA hB
      rcases List.mem_map.mp hB with ⟨m, hm, rfl⟩
      have hfresh := (dedupGo_hash_fresh new (dedupGo [] existing).2).2 m hm
      exact hfresh ((dedupGo_seen_iff existing [] (msgHash m)).mpr (Or.inl hA))
  · intro e he hpe m hm hhash
    rw [dedup_eq_append] at hm
    rcases List.mem_append.mp hm with h | h
    · exact (dedupGo_sublist existing []).subset h
    · exfalso
      have hfresh := (dedupGo_hash_fresh new (dedupGo [] existing).2).2 m h
      have hseen : msgHash e ∈ (dedupGo [] existing).2 :=
        dedupGo_mem_seen_of_passes existing [] e he hpe
      exact hfresh (hhash ▸ hseen)

/-- C6: a record whose stripped Content fails the relevance classifier never
appears in the merge output, even when it is present in the existing store:
the classifier is re-run on every record of both inputs, so a keyword-list
change retroactively prunes previously stored records. -/
theorem dedup_drops_irrelevant (existing new : List Msg) (m : Msg) :
    is_legitimate_breach (msgContent m) = false →
    m ∉ deduplicate_messages existing new := by
  intro hfail hm
  rw [dedup_eq_append] at hm
  have hp : msgPasses m = true := by
    rcases List.mem_append.mp hm with h | h
    · exact dedupGo_passes existing [] m h
    · exact dedupGo_passes new _ m h
  have hleg : is_legitimate_breach (msgContent m) = true := by
    have h2 := hp
    rw [show msgPasses m =
      (decide (msgContent m ≠ []) && is_legitimate_breach (msgContent m))
      from rfl] at h2
    simp only [Bool.and_eq_true] at h2
    exact h2.2
  rw [hfail] at hleg
  exact Bool.false_ne_true hleg

/-- C7: on a stable store (all records pass the classifier with nonempty
stripped Content and pairwise distinct hashes) merging the empty batch is the
identity, and merging two hash-disjoint batches in sequence equals merging
their concatenation. -/
theorem merge_idempotent_and_compositional :
    (∀ store : List Msg,
      (∀ m ∈ store, msgPasses m = true) → (store.map msgHash).Nodup →
      deduplicate_messages store [] = store)
    ∧ (∀ store b1 b2 : List Msg,
      (∀ m1 ∈ b1, ∀ m2 ∈ b2, msgHash m1 ≠ msgHash m2) →
      (∀ m ∈ store, ∀ m1 ∈ b1, msgHash m ≠ msgHash m1) →
      (∀ m ∈ store, ∀ m2 ∈ b2, msgHash m ≠ msgHash m2) →
      deduplicate_messages (deduplicate_messages store b1) b2 =
        deduplicate_messages store (b1 ++ b2)) := by
  have habsorb : ∀ s b1 b2 : List Msg,
      deduplicate_messages (deduplicate_messages s b1) b2 =
        deduplicate_messages s (b1 ++ b2) := by
    intro s b1 b2
    have hD : deduplicate_messages s b1 = (dedupGo [] (s ++ b1)).1 := by
      rw [dedup_eq_append, dedupGo_append s b1 []]
    have hpass : ∀ m ∈ (dedupGo [] (s ++ b1)).1, msgPasses m = true :=
      fun m hm => dedupGo_passes _ _ m hm
    have hnd := (dedupGo_hash_fresh (s ++ b1) []).1
    have hgo : (dedupGo [] (dedupGo [] (s ++ b1)).1).1 = (dedupGo [] (s ++ b1)).1 :=
      dedupGo_stable _ [] hpass hnd (fun m _ h => List.not_mem_nil _ h)
    have hseeneq : ∀ h, h ∈ (dedupGo [] (dedupGo [] (s ++ b1)).1).2 ↔
        h ∈ (dedupGo [] (s ++ b1)).2 := by
      intro h
      rw [dedupGo_seen_iff, dedupGo_seen_iff, hgo]
    have hcongr := dedupGo_congr b2 (dedupGo [] (dedupGo [] (s ++ b1)).1).2
      (dedupGo [] (s ++ b1)).2 hseeneq
    calc deduplicate_messages (deduplicate_messages s b1) b2
        = (dedupGo [] (dedupGo [] (s ++ b1)).1).1 ++
            (dedupGo (dedupGo [] (dedupGo [] (s ++ b1)).1).2 b2).1 := by
          rw [dedup_eq_append, hD]
      _ = (dedupGo [] (s ++ b1)).1 ++ (dedupGo (dedupGo [] (s ++ b1)).2 b2).1 := by
          rw [hgo, hcongr.1]
      _ = deduplicate_messages s (b1 ++ b2) := by
          rw [dedup_eq_append s (b1 ++ b2), dedupGo_append b1 b2,
            dedupGo_append s b1 []]
          simp [List.append_assoc]
  constructor
  · intro store hpass hnd
    rw [dedup_eq_append,
      dedupGo_stable store [] hpass hnd (fun m _ h => List.not_mem_nil _ h)]
    simp [dedupGo]
  · intro store b1 b2 _ _ _
    exact habsorb store b1 b2

/-- C9: the improved variant's save truncates any merged result longer than
the 10000-record cap to exactly the first 10000 records in iteration order
(and the merge output lists kept existing-store records before kept incoming
ones), while a result at or below the cap is persisted unchanged. -/
theorem save_cap_enforced :
    (∀ msgs : List Msg, msgs.length > 10000 →
      save_data_truncate msgs = msgs.take 10000 ∧
        (save_data_truncate msgs).length = 10000)
    ∧ (∀ msgs : List Msg, msgs.length ≤ 10000 → save_data_truncate msgs = msgs)
    ∧ (∀ existing new : List Msg, ∃ keptE keptN : List Msg,
        deduplicate_messages existing new = keptE ++ keptN ∧
          List.Sublist keptE existing ∧ List.Sublist keptN new) := by
  refine ⟨?_, ?_, ?_⟩
  · intro msgs h
    refine ⟨by simp [save_data_truncate, h], ?_⟩
    simp only [save_data_truncate, h, if_true, List.length_take]
    omega
  · intro msgs h
    simp only [save_data_truncate, if_neg (by omega : ¬ msgs.length > 10000)]
  · intro existing new
    exact ⟨(dedupGo [] existing).1, (dedupGo (dedupGo [] existing).2 new).1, rfl,
      dedupGo_sublist existing [], dedupGo_sublist new _⟩

/-- C10: which positions the merge keeps or drops is a function of the
records' Content fields alone (all other fields are ignored by the dedup
key and the relevance test); in particular two records with equal stripped
Content but different Source are duplicates: only the existing one is kept. -/
theorem dedup_depends_only_on_content :
    (∀ existing new : List Msg,
      deduplicate_messages existing new =
        applyMask (keepMask (existing.map Msg.Content) (new.map Msg.Content))
          (existing ++ new))
    ∧ (∀ m1 m2 : Msg, msgContent m1 = msgContent m2 → msgPasses m1 = true →
        deduplicate_messages [m1] [m2] = [m1]) := by
  constructor
  · intro existing new
    rw [dedup_eq_append, dedupGo_mask existing [], dedupGo_mask new, keepMask,
      applyMask_append _ _ _ _ (by rw [keepMaskGo_length, List.length_map])]
  · intro m1 m2 hc hp
    have hp2 : msgPasses m2 = true := by
      rw [show msgPasses m2 =
        (decide (msgContent m2 ≠ []) && is_legitimate_breach (msgContent m2))
        from rfl, ← hc]
      exact hp
    have hhash : msgHash m2 = msgHash m1 := by
      rw [show msgHash m2 = contentHash (msgContent m2) from rfl, ← hc]
      rfl
    simp [deduplicate_messages, dedupGo, hp, hp2, hhash]

set_option allowUnsafeReducibility true in
attribute [semireducible] contentHash

set_option maxRecDepth 200000 in
theorem dedup_hash_unique_existing_wins_witness :
    ((deduplicate_messages [msgA] [msgB]).map msgHash).Nodup ∧ msgA ∈ [msgA] := by
  constructor
  · exact (dedup_hash_unique_existing_wins [msgA] [msgB]).1
  · exact (dedup_hash_unique_existing_wins [msgA] [msgB]).2 msgA
      (List.mem_cons_self _ _) (by decide) msgA (by decide) rfl

theorem dedup_drops_irrelevant_witness :
    msgSpam ∉ deduplicate_messages [msgSpam] [] :=
  dedup_drops_irrelevant [msgSpam] [] msgSpam (by decide)

set_option maxRecDepth 200000 in
theorem merge_idempotent_and_compositional_witness :
    deduplicate_messages [msgA] [] = [msgA]
    ∧ deduplicate_messages (deduplicate_messages [msgA] [msgC]) [msgD] =
        deduplicate_messages [msgA] ([msgC] ++ [msgD]) := by
  constructor
  · exact merge_idempotent_and_compositional.1 [msgA] (by decide) (by simp)
  · exact merge_idempotent_and_compositional.2 [msgA] [msgC] [msgD]
      (by decide) (by decide) (by decide)

theorem save_cap_enforced_witness :
    save_data_truncate (List.replicate 10001 msgA) =
        (List.replicate 10001 msgA).take 10000
    ∧ (save_data_truncate (List.replicate 10001 msgA)).length = 10000
    ∧ save_data_truncate [msgA] = [msgA] := by
  have h : (List.replicate 10001 msgA).length > 10000 := by
    rw [List.length_replicate]
    norm_num
  exact ⟨(save_cap_enforced.1 _ h).1, (save_cap_enforced.1 _ h).2,
    save_cap_enforced.2.1 [msgA] (by decide)⟩

theorem dedup_depends_only_on_content_witness :
    msgContent msgA = msgContent msgA2 ∧ msgPasses msgA = true ∧
      deduplicate_messages [msgA] [msgA2] = [msgA] := by
  refine ⟨by decide, by decide, ?_⟩
  exact dedup_depends_only_on_content.2 msgA msgA2 (by decide) (by decide)

/-! ### Structural lemmas about the JSON parser -/

theorem mem_skipWs {a : Char} {s : PyStr} (h : a ∈ skipWs s) : a ∈ s :=
  (List.dropWhile_suffix isWsJ).subset h

theorem skipWs_decomp {s : PyStr} {ch : Char} {r : PyStr}
    (h : skipWs s = ch :: r) :
    s = s.takeWhile isWsJ ++ ch :: r ∧ ∀ c ∈ s.takeWhile isWsJ, isWsJ c :=
  ⟨by rw [← h]; exact (List.takeWhile_append_dropWhile isWsJ s).symm,
   fun _ hc => List.mem_takeWhile_imp hc⟩

theorem parseMembers_quote {n : Nat} {s : PyStr}
    {p : List (PyStr × JsonVal) × PyStr}
    (h : parseMembers n s = some p) : '"' ∈ s := by
  cases n with
  | zero => simp [parseMembers] at h
  | succ n =>
    cases s with
    | nil => simp [parseMembers] at h
    | cons ch r =>
      by_cases hch : ch = '"'
      · subst hch; exact List.mem_cons_self _ _
      · rw [parseMembers, if_neg hch] at h
        exact absurd h (by simp)

theorem parseVal_jstr_inv {n : Nat} {s : PyStr} {cs : PyStr} {r : PyStr}
    (h : parseVal n s = some (JsonVal.jstr cs, r)) : '"' ∈ s := by
  cases n with
  | zero => simp [parseVal] at h
  | succ n =>
    rw [parseVal] at h
    split at h
    · exact absurd h (by simp)
    · rename_i x ch rest heq
      by_cases h1 : ch = '\x7b'
      · rw [if_pos h1] at h
        split at h
        · exact absurd h (by simp)
        · rename_i c2 r2 heq2
          by_cases h2 : c2 = '\x7d'
          · rw [if_pos h2] at h
            exact absurd h (by simp)
          · rw [if_neg h2] at h
            rcases Option.map_eq_some'.mp h with ⟨p, _, hp2⟩
            exact absurd hp2 (by simp)
      · rw [if_neg h1] at h
        by_cases h2 : ch = '['
        · rw [if_pos h2] at h
          split at h
          · exact absurd h (by simp)
          · rename_i c2 r2 heq2
            by_cases h3 : c2 = ']'
            · rw [if_pos h3] at h
              exact absurd h (by simp)
            · rw [if_neg h3] at h
              rcases Option.map_eq_some'.mp h with ⟨p, _, hp2⟩
              exact absurd hp2 (by simp)
        · rw [if_neg h2] at h
          by_cases h3 : ch = '"'
          · subst h3
            exact mem_skipWs (heq ▸ List.mem_cons_self _ _)
          · rw [if_neg h3] at h
            by_cases h4 : ch = 't'
            · rw [if_pos h4] at h
              unfold expectLit at h
              split at h <;> exact absurd h (by simp)
            · rw [if_neg h4] at h
              by_cases h5 : ch = 'f'
              · rw [if_pos h5] at h
                unfold expectLit at h
                split at h <;> exact absurd h (by simp)
              · rw [if_neg h5] at h
                by_cases h6 : ch = 'n'
                · rw [if_pos h6] at h
                  unfold expectLit at h
                  split at h <;> exact absurd h (by simp)
                · rw [if_neg h6] at h
                  by_cases h7 : ch = 'N'
                  · rw [if_pos h7] at h
                    unfold expectLit at h
                    split at h <;> exact absurd h (by simp)
                  · rw [if_neg h7] at h
                    by_cases h8 : ch = 'I'
                    · rw [if_pos h8] at h
                      unfold expectLit at h
                      split at h <;> exact absurd h (by simp)
                    · rw [if_neg h8] at h
                      rcases Option.map_eq_some'.mp h with ⟨p, _, hp2⟩
                      exact absurd hp2 (by simp)

theorem parseVal_jobj_inv {n : Nat} {s : PyStr} {kvs : List (PyStr × JsonVal)}
    {r : PyStr} (h : parseVal n s = some (JsonVal.jobj kvs, r)) :
    ∃ rest, skipWs s = '\x7b' :: rest ∧
      ((kvs = [] ∧ skipWs rest = '\x7d' :: r) ∨ '"' ∈ rest) := by
  cases n with
  | zero => simp [parseVal] at h
  | succ n =>
    rw [parseVal] at h
    split at h
    · exact absurd h (by simp)
    · rename_i x ch rest heq
      by_cases h1 : ch = '\x7b'
      · subst h1
        refine ⟨rest, heq, ?_⟩
        rw [if_pos rfl] at h
        split at h
        · exact absurd h (by simp)
        · rename_i c2 r2 heq2
          by_cases h2 : c2 = '\x7d'
          · subst h2
            rw [if_pos rfl] at h
            left
            have h3 := Option.some.inj h
            refine ⟨?_, ?_⟩
            · have := congrArg Prod.fst h3
              simp only at this
              exact (JsonVal.jobj.inj this).symm
            · rw [heq2]
              have := congrArg Prod.snd h3
              simp only at this
              rw [this]
          · rw [if_neg h2] at h
            right
            rcases Option.map_eq_some'.mp h with ⟨p, hp, _⟩
            exact mem_skipWs (heq2 ▸ parseMembers_quote hp)
      · exfalso
        rw [if_neg h1] at h
        by_cases h2 : ch = '['
        · rw [if_pos h2] at h
          split at h
          · exact absurd h (by simp)
          · rename_i c2 r2 heq2
            by_cases h3 : c2 = ']'
            · rw [if_pos h3] at h
              exact absurd h (by simp)
            · rw [if_neg h3] at h
              rcases Option.map_eq_some'.mp h with ⟨p, _, hp2⟩
              exact absurd hp2 (by simp)
        · rw [if_neg h2] at h
          by_cases h3 : ch = '"'
          · rw [if_pos h3] at h
            rcases Option.map_eq_some'.mp h with ⟨p, _, hp2⟩
            exact absurd hp2 (by simp)
          · rw [if_neg h3] at h
            by_cases h4 : ch = 't'
            · rw [if_pos h4] at h
              unfold expectLit at h
              split at h <;> exact absurd h (by simp)
            · rw [if_neg h4] at h
              by_cases h5 : ch = 'f'
              · rw [if_pos h5] at h
                unfold expectLit at h
                split at h <;> exact absurd h (by simp)
              · rw [if_neg h5] at h
                by_cases h6 : ch = 'n'
                · rw [if_pos h6] at h
                  unfold expectLit at h
                  split at h <;> exact absurd h (by simp)
                · rw [if_neg h6] at h
                  by_cases h7 : ch = 'N'
                  · rw [if_pos h7] at h
                    unfold expectLit at h
                    split at h <;> exact absurd h (by simp)
                  · rw [if_neg h7] at h
                    by_cases h8 : ch = 'I'
                    · rw [if_pos h8] at h
                      unfold expectLit at h
                      split at h <;> exact absurd h (by simp)
                    · rw [if_neg h8] at h
                      rcases Option.map_eq_some'.mp h with ⟨p, _, hp2⟩
                      exact absurd hp2 (by simp)

theorem jsonLoads_not_jstr {c : PyStr} (hq : '"' ∉ c) (s : PyStr) :
    jsonLoads c ≠ some (JsonVal.jstr s) := by
  intro h
  unfold jsonLoads at h
  split at h
  · rename_i v r hv
    by_cases he : skipWs r = []
    · rw [if_pos he] at h
      have hve := Option.some.inj h
      subst hve
      exact hq (parseVal_jstr_inv hv)
    · rw [if_neg he] at h
      exact absurd h (by simp)
  · exact absurd h (by simp)

theorem jsonLoads_jobj_inv {c : PyStr} (hq : '"' ∉ c)
    {kvs : List (PyStr × JsonVal)} (h : jsonLoads c = some (JsonVal.jobj kvs)) :
    kvs = [] ∧ ∀ ch ∈ c, isWsJ ch = true ∨ ch = '\x7b' ∨ ch = '\x7d' := by
  unfold jsonLoads at h
  split at h
  case h_2 => exact absurd h (by simp)
  case h_1 =>
    rename_i v r hv
    by_cases he : skipWs r = []
    swap
    · rw [if_neg he] at h
      exact absurd h (by simp)
    · rw [if_pos he] at h
      have hve := Option.some.inj h
      subst hve
      rcases parseVal_jobj_inv hv with ⟨rest, hsk, hcase⟩
      rcases hcase with ⟨hkvs, hsk2⟩ | hmem
      · refine ⟨hkvs, ?_⟩
        rcases skipWs_decomp hsk with ⟨hdec1, hws1⟩
        rcases skipWs_decomp hsk2 with ⟨hdec2, hws2⟩
        have hrws : ∀ ch ∈ r, isWsJ ch :=
          List.dropWhile_eq_nil_iff.mp he
        intro ch hch
        rw [hdec1] at hch
        rcases List.mem_append.mp hch with hch | hch
        · exact Or.inl (hws1 ch hch)
        · rcases List.mem_cons.mp hch with hch | hch
          · exact Or.inr (Or.inl hch)
          · rw [hdec2] at hch
            rcases List.mem_append.mp hch with hch | hch
            · exact Or.inl (hws2 ch hch)
            · rcases List.mem_cons.mp hch with hch | hch
              · exact Or.inr (Or.inr hch)
              · exact Or.inl (hrws ch hch)
      · exact absurd (mem_skipWs (hsk ▸ List.mem_cons_of_mem _ hmem)) hq

set_option allowUnsafeReducibility true in
attribute [irreducible] parseVal parseMembers parseElems jsonLoads

/-! ### `clean_text` leaves no double quote -/

theorem pyStrip_subset {a : Char} {s : PyStr} (h : a ∈ pyStrip s) : a ∈ s := by
  unfold pyStrip at h
  have h1 := List.mem_reverse.mp h
  have h2 := (List.dropWhile_suffix pyIsSpace).subset h1
  have h3 := List.mem_reverse.mp h2
  exact (List.dropWhile_suffix pyIsSpace).subset h3

theorem clean_text_no_quote (t : PyStr) : '"' ∉ clean_text t := by
  intro h
  unfold clean_text at h
  have h1 := pyStrip_subset h
  have h2 := (List.mem_filter.mp h1).2
  simp at h2

theorem truncContent_subset {a : Char} {c : PyStr}
    (h : a ∈ truncContent c) : a ∈ c := by
  unfold truncContent at h
  split at h
  · exact List.mem_of_mem_take h
  · exact h

theorem truncContent_no_quote (t : PyStr) :
    '"' ∉ truncContent (clean_text t) :=
  fun h => clean_text_no_quote t (truncContent_subset h)

theorem truncContent_length (c : PyStr) :
    (truncContent c).length ≤ MAX_CONTENT_LENGTH := by
  unfold truncContent
  split
  · rw [List.length_take]
    exact Nat.min_le_left _ _
  · omega

/-! ### Content made only of braces and whitespace is never relevant -/

theorem toLower_braceWs {c0 : Char}
    (h : isWsJ c0 = true ∨ c0 = '\x7b' ∨ c0 = '\x7d') :
    Char.toLower c0 = c0 := by
  rcases h with h | h | h
  · unfold isWsJ at h
    simp only [Bool.or_eq_true, decide_eq_true_iff] at h
    rcases h with ((h | h) | h) | h <;> subst h <;> decide
  · subst h; decide
  · subst h; decide

theorem braces_not_relevant (c : PyStr)
    (hc : ∀ ch ∈ c, isWsJ ch = true ∨ ch = '\x7b' ∨ ch = '\x7d') :
    is_relevant_breach c = false := by
  have hscore : breachScoreHist c = 0 := by
    rw [breachScoreHist]
    apply List.countP_eq_zero.mpr
    intro k hk hdec
    have hinf : k <:+: c.map Char.toLower := of_decide_eq_true hdec
    have hall : ∀ x ∈ BREACH_INDICATORS_HIST, ∃ ch ∈ x,
        isWsJ ch = false ∧ ch ≠ '\x7b' ∧ ch ≠ '\x7d' := by decide
    rcases hall k hk with ⟨ch, hmemk, hw, hb1, hb2⟩
    have hch : ch ∈ c.map Char.toLower := hinf.subset hmemk
    rcases List.mem_map.mp hch with ⟨c0, hc0, hlow⟩
    have hprop := hc c0 hc0
    rw [toLower_braceWs hprop] at hlow
    subst hlow
    rcases hprop with h | h | h
    · rw [h] at hw
      exact absurd hw (by simp)
    · exact hb1 h
    · exact hb2 h
  unfold is_relevant_breach
  split
  · rfl
  · rw [hscore]
    simp

/-! ### Defaulting and coercion on the empty dict -/

theorem setDefaults_nil (c : PyStr) : setDefaults c [] = fallbackEntries c := rfl

theorem coerce_imp_entries (c : PyStr) (hlen : c.length ≤ MAX_CONTENT_LENGTH) :
    (fallbackEntries c).map coerceFieldImp = fallbackEntries c := by
  unfold fallbackEntries coerceFieldImp
  simp only [List.map_cons, List.map_nil]
  congr 1
  · rw [if_neg, if_neg]
    · rintro ⟨h1, _⟩
      exact absurd h1 (by decide)
    · rintro ⟨_, h2⟩
      omega

theorem coerce_hist_entries (c : PyStr) (hlen : c.length ≤ MAX_CONTENT_LENGTH) :
    (fallbackEntries c).map coerceFieldHist = fallbackEntries c := by
  unfold fallbackEntries coerceFieldHist
  simp only [List.map_cons, List.map_nil]
  congr 1
  · rw [if_neg, if_neg, if_neg]
    · exact (by decide)
    · rintro ⟨h1, _⟩
      exact absurd h1 (by decide)
    · rintro ⟨_, h2⟩
      omega

theorem jGet_fallback_content (c : PyStr) :
    jGet contentKey (fallbackEntries c) = some (JsonVal.jstr c) := rfl

theorem jGet_fallback_type (c : PyStr) :
    jGet typeKey (fallbackEntries c) = some (JsonVal.jstr dataLeakVal) := rfl

/-- The history variant's parser returns `None` on every input: quoted JSON
is destroyed by the quote-stripping in `clean_text` before `json.loads` runs,
the only quote-free parse producing a dict is (whitespace around) `\x7b\x7d`,
and such brace-and-whitespace content never passes `is_relevant_breach`. -/
theorem parse_json_message_eq_none (i : MsgIn) : parse_json_message i = none := by
  cases i with
  | nonStr => rfl
  | ofStr t =>
    show histLoop 2 (truncContent (clean_text t)) = none
    have hq : '"' ∉ truncContent (clean_text t) := truncContent_no_quote t
    have hlen := truncContent_length (clean_text t)
    cases hl : jsonLoads (truncContent (clean_text t)) with
    | none => simp [histLoop, hl]
    | some v =>
      cases v with
      | jstr s => exact absurd hl (jsonLoads_not_jstr hq s)
      | jnum t2 => simp [histLoop, hl]
      | jbool b => simp [histLoop, hl]
      | jnull => simp [histLoop, hl]
      | jarr xs => simp [histLoop, hl]
      | jobj kvs =>
        obtain ⟨hkvs, hchars⟩ := jsonLoads_jobj_inv hq hl
        subst hkvs
        simp only [histLoop, hl]
        rw [setDefaults_nil, coerce_hist_entries _ hlen, jGet_fallback_content]
        show (if is_relevant_breach (truncContent (clean_text t)) = true then
          some (JsonVal.jobj (fallbackEntries (truncContent (clean_text t))))
          else none) = none
        rw [braces_not_relevant _ hchars]
        simp

/-- C3: every record (dict) returned by the improved variant's parser carries
a `Type` field belonging to the allowed breach-type set (an absent `Type`
defaults to "Data leak"); the history variant's parser returns no record at
all, so no record with an out-of-set `Type` is ever returned or stored. -/
theorem parse_type_always_allowed :
    (∀ (i : MsgIn) (kvs : List (PyStr × JsonVal)),
      parse_message_content i = some (JsonVal.jobj kvs) →
      ∃ tval, jGet typeKey kvs = some (JsonVal.jstr tval) ∧
        tval ∈ ALLOWED_BREACH_TYPES)
    ∧ ∀ i : MsgIn, parse_json_message i = none := by
  constructor
  · intro i kvs h
    cases i with
    | nonStr => exact absurd h (by simp [parse_message_content])
    | ofStr t =>
      have hq : '"' ∉ truncContent (clean_text t) := truncContent_no_quote t
      have hlen := truncContent_length (clean_text t)
      rw [show parse_message_content (MsgIn.ofStr t) =
        impLoop 2 (truncContent (clean_text t)) from rfl] at h
      cases hl : jsonLoads (truncContent (clean_text t)) with
      | none =>
        simp only [impLoop, hl] at h
        have h2 : fallbackRecord (truncContent (clean_text t)) =
            JsonVal.jobj kvs := Option.some.inj h
        unfold fallbackRecord at h2
        have h3 := (JsonVal.jobj.inj h2).symm
        subst h3
        exact ⟨dataLeakVal, jGet_fallback_type _, by decide⟩
      | some v =>
        cases v with
        | jstr s => exact absurd hl (jsonLoads_not_jstr hq s)
        | jnum t2 => simp [impLoop, hl] at h
        | jbool b => simp [impLoop, hl] at h
        | jnull => simp [impLoop, hl] at h
        | jarr xs => simp [impLoop, hl] at h
        | jobj kvs0 =>
          obtain ⟨hkvs, _⟩ := jsonLoads_jobj_inv hq hl
          subst hkvs
          simp only [impLoop, hl] at h
          rw [setDefaults_nil, coerce_imp_entries _ hlen] at h
          have h3 := (JsonVal.jobj.inj (Option.some.inj h)).symm
          subst h3
          exact ⟨dataLeakVal, jGet_fallback_type _, by decide⟩
  · exact parse_json_message_eq_none

set_option allowUnsafeReducibility true in
attribute [semireducible] parseVal parseMembers parseElems jsonLoads

set_option maxRecDepth 10000 in
theorem parse_type_always_allowed_witness :
    parse_message_content (MsgIn.ofStr (("hello breach").data)) =
      some (JsonVal.jobj (fallbackEntries (("hello breach").data)))
    ∧ (∃ tval, jGet typeKey (fallbackEntries (("hello breach").data)) =
        some (JsonVal.jstr tval) ∧ tval ∈ ALLOWED_BREACH_TYPES)
    ∧ parse_json_message (MsgIn.ofStr (("hello breach").data)) = none := by
  have h : parse_message_content (MsgIn.ofStr (("hello breach").data)) =
      some (JsonVal.jobj (fallbackEntries (("hello breach").data))) := rfl
  exact ⟨h, parse_type_always_allowed.1 _ _ h,
    parse_type_always_allowed.2 _⟩

/-- C5 counterexample: on empty input text the improved variant's parser does
NOT return `None`: `json.loads('')` raises, so the plain-text fallback record
with empty Content is returned. -/
theorem parse_empty_counterexample :
    parse_message_content (MsgIn.ofStr []) = some (fallbackRecord [])
    ∧ parse_message_content (MsgIn.ofStr []) ≠ none := by
  refine ⟨rfl, ?_⟩
  intro h
  rw [show parse_message_content (MsgIn.ofStr []) = some (fallbackRecord [])
    from rfl] at h
  exact Option.noConfusion h

/-- C5 (amended): non-string input yields `None` from both parsers; on text
whose normalized form is empty after truncation the history variant's parser
returns `None`, but the improved variant's parser instead returns the
plain-text fallback record with empty Content — which
`validate_message_structure` rejects (as it rejects any record with an absent
Content key or empty stripped Content), so empty-content records are still
never stored. -/
theorem parse_empty_and_storage :
    (parse_message_content MsgIn.nonStr = none
      ∧ parse_json_message MsgIn.nonStr = none)
    ∧ (∀ s : PyStr, truncContent (clean_text s) = [] →
        parse_json_message (MsgIn.ofStr s) = none)
    ∧ (∀ s : PyStr, truncContent (clean_text s) = [] →
        parse_message_content (MsgIn.ofStr s) = some (fallbackRecord []))
    ∧ (∀ (d : List (PyStr × JsonVal)) (c0 : PyStr),
        jGet contentKey d = some (JsonVal.jstr c0) → pyStrip c0 = [] →
        validate_message_structure d = false)
    ∧ (∀ d : List (PyStr × JsonVal), jGet contentKey d = none →
        validate_message_structure d = false) := by
  refine ⟨⟨rfl, rfl⟩, ?_, ?_, ?_, ?_⟩
  · intro s _
    exact parse_json_message_eq_none _
  · intro s hs
    show impLoop 2 (truncContent (clean_text s)) = some (fallbackRecord [])
    rw [hs]
    rfl
  · intro d c0 hget hstrip
    unfold validate_message_structure
    rw [hget]
    simp [hstrip]
  · intro d hget
    unfold validate_message_structure
    rw [hget]

theorem parse_empty_and_storage_witness :
    parse_json_message (MsgIn.ofStr []) = none
    ∧ parse_message_content (MsgIn.ofStr []) = some (fallbackRecord [])
    ∧ validate_message_structure (fallbackEntries []) = false := by
  exact ⟨parse_empty_and_storage.2.1 [] rfl,
    parse_empty_and_storage.2.2.1 [] rfl,
    parse_empty_and_storage.2.2.2.1 (fallbackEntries []) [] rfl rfl⟩

set_option maxRecDepth 100000 in
/-- C4 (code bug): round-tripping fails.  A record produced by parse,
serialized with `json.dumps`, does not re-parse to an equivalent record:
`clean_text` strips every double quote before `json.loads`, so the
serialization falls through to the plain-text fallback whose Content is the
quote-stripped serialization, not the original Content. -/
theorem roundtrip_fails :
    parse_message_content (MsgIn.ofStr rtInput) = some (fallbackRecord rtInput)
    ∧ parse_message_content
        (MsgIn.ofStr (pyJsonDumps (fallbackRecord rtInput))) =
        some (fallbackRecord rtMangled)
    ∧ jGet contentKey (fallbackEntries rtMangled) ≠
        jGet contentKey (fallbackEntries rtInput) := by
  refine ⟨rfl, rfl, ?_⟩
  intro h
  rw [jGet_fallback_content, jGet_fallback_content] at h
  have h2 := JsonVal.jstr.inj (Option.some.inj h)
  exact absurd h2 (by decide)

set_option maxRecDepth 100000 in
/-- C8 (code bug): on the spec's structured scenario input the improved
variant's parser returns the plain-text fallback (Source "Unknown", Content
the quote-stripped text) instead of the structured fields, and the history
variant's parser returns None — while the classifier half of the scenario
holds: the Content is a breach with score at least 3 and spam score 0. -/
theorem structured_scenario_behavior :
    parse_message_content (MsgIn.ofStr c8raw) = some (fallbackRecord c8mangled)
    ∧ jGet sourceKey (fallbackEntries c8mangled) = some (JsonVal.jstr unknownVal)
    ∧ unknownVal ≠ ("test.com").data
    ∧ parse_json_message (MsgIn.ofStr c8raw) = none
    ∧ is_legitimate_breach c8content = true
    ∧ breachScore c8content ≥ 3
    ∧ spamScore c8content = 0 :=
  ⟨rfl, rfl, by decide, parse_json_message_eq_none _, by decide, by decide,
   by decide⟩

end Leakwatch
